import Mathlib

/-!
# Verification of the ssspy blind source separation core

This file embeds the parts of the `ssspy` repository that the verified
properties speak about:

* a shape calculus for the numpy array operations used by
  `ssspy/transform/whiten.py` and by `ILRMAbase._reset` /
  `ILRMAbase.separate` (`ssspy/bss/ilrma.py`);
* the numeric core of the ILRMA family (`ssspy/bss/ilrma.py`): the
  `separate` matrix product, power normalization, the multiplicative NMF
  updates of `GaussILRMA` and `TILRMA`, and projection-back scale
  restoration;
* the correlation based permutation solver
  (`ssspy/bss/_solve_permutation.py`), instantiated at two sources.

Machine floats are embedded as real numbers; complex spectrogram entries as
`ℂ`.  Fallible operations return `Except String`.
-/

namespace Ssspy

/-! ## Shape calculus for the numpy operations used by the code

Shapes are lists of dimension sizes, leading axis first, exactly as
`numpy.ndarray.shape`. -/

abbrev Shape := List ℕ

/-- Broadcasting of a single pair of dimensions, as in numpy: equal sizes
broadcast to themselves and a size of `1` stretches to the other size. -/
def bcastDim (d₁ d₂ : ℕ) : Option ℕ :=
  if d₁ = d₂ then some d₁
  else if d₁ = 1 then some d₂
  else if d₂ = 1 then some d₁
  else none

/-- Broadcasting of two shapes of equal length, dimension by dimension. -/
def bcastAligned : Shape → Shape → Option Shape
  | [], [] => some []
  | d₁ :: s₁, d₂ :: s₂ => do
    let d ← bcastDim d₁ d₂
    let s ← bcastAligned s₁ s₂
    pure (d :: s)
  | _, _ => none

/-- Full numpy broadcasting: the shorter shape is padded with leading ones,
then dimensions are broadcast pairwise. -/
def bcastShape (s₁ s₂ : Shape) : Option Shape :=
  let l := max s₁.length s₂.length
  bcastAligned (List.replicate (l - s₁.length) 1 ++ s₁)
    (List.replicate (l - s₂.length) 1 ++ s₂)

/-- Shape of `numpy.matmul` on operands of dimension at least two: the last
two axes are multiplied as matrices and the leading axes are broadcast. -/
def matmulShape (s₁ s₂ : Shape) : Option Shape :=
  match s₁.reverse, s₂.reverse with
  | b :: a :: rest₁, c :: b' :: rest₂ =>
    if b = b' then
      match bcastShape rest₁.reverse rest₂.reverse with
      | some batch => some (batch ++ [a, c])
      | none => none
    else none
  | _, _ => none

/-- Shape of `numpy.transpose` with an explicit list of axes (the axis list
must name each axis of the input exactly once; only well-formed axis lists
appear in the embedded code). -/
def transposeShape (axes : List ℕ) (s : Shape) : Shape :=
  axes.map fun a => s.getD a 0

/-- Shape of `numpy.mean(_, axis=k)`: axis `k` is removed. -/
def meanAxis (k : ℕ) (s : Shape) : Shape :=
  s.take k ++ s.drop (k + 1)

/-- Shape effect of indexing with `np.newaxis` at position `k`. -/
def newaxisAt (k : ℕ) (s : Shape) : Shape :=
  s.take k ++ 1 :: s.drop k

/-- Shape contract of the external eigensolver `numpy.linalg.eigh` on a
stack of Hermitian matrices `(..., n, n)`: eigenvalues have shape
`(..., n)` and eigenvectors the input shape. -/
def eighShapes (s : Shape) : Shape × Shape :=
  (s.dropLast, s)

/-- Shape of `numpy.diag` applied to a one dimensional array. -/
def diagShape : Shape → Shape
  | [n] => [n, n]
  | s => s

/-- An ndarray as seen by the shape level embedding: whether its dtype is
complex, and its shape. -/
structure TensorMeta where
  complex : Bool
  shape : Shape
  deriving DecidableEq, Repr

/-- Output shape of the two dimensional real branch of
`ssspy.transform.whiten.whiten`, replaying its array operations on shapes. -/
def whiten2dShape (nCh nSmp : ℕ) : Option Shape := do
  let X := transposeShape [1, 0] [nCh, nSmp]
  let prod ← bcastShape (newaxisAt 2 X) (newaxisAt 1 X)
  let covariance := meanAxis 0 prod
  let (w, v) := eighShapes covariance
  let dDiag := diagShape w
  let vT := transposeShape [1, 0] v
  let m₁ ← matmulShape dDiag vT
  matmulShape m₁ (transposeShape [1, 0] X)

/-- Output shape of the three dimensional complex branch of `whiten`. -/
def whiten3dComplexShape (d₀ d₁ d₂ : ℕ) : Option Shape := do
  let nCh := d₀
  let X := transposeShape [1, 2, 0] [d₀, d₁, d₂]
  let prod ← bcastShape (newaxisAt 3 X) (newaxisAt 2 X)
  let covariance := meanAxis 1 prod
  let (w, v) := eighShapes covariance
  let dDiag ← bcastShape (newaxisAt 2 w) [nCh, nCh]
  let vH := transposeShape [0, 2, 1] v
  let m₁ ← matmulShape dDiag vH
  let y ← matmulShape m₁ (transposeShape [0, 2, 1] X)
  pure (transposeShape [1, 0, 2] y)

/-- Output shape of the three dimensional real branch of `whiten`. -/
def whiten3dRealShape (d₀ d₁ d₂ : ℕ) : Option Shape := do
  let nCh := d₁
  let X := transposeShape [0, 2, 1] [d₀, d₁, d₂]
  let prod ← bcastShape (newaxisAt 3 X) (newaxisAt 2 X)
  let covariance := meanAxis 1 prod
  let (w, v) := eighShapes covariance
  let dDiag ← bcastShape (newaxisAt 2 w) [nCh, nCh]
  let vT := transposeShape [0, 2, 1] v
  let m₁ ← matmulShape dDiag vT
  matmulShape m₁ (transposeShape [0, 2, 1] X)

/-- Output shape of the four dimensional complex branch of `whiten`. -/
def whiten4dComplexShape (d₀ d₁ d₂ d₃ : ℕ) : Option Shape := do
  let nCh := d₁
  let X := transposeShape [0, 2, 3, 1] [d₀, d₁, d₂, d₃]
  let prod ← bcastShape (newaxisAt 4 X) (newaxisAt 3 X)
  let covariance := meanAxis 2 prod
  let (w, v) := eighShapes covariance
  let dDiag ← bcastShape (newaxisAt 3 w) [nCh, nCh]
  let vH := transposeShape [0, 1, 3, 2] v
  let m₁ ← matmulShape dDiag vH
  let y ← matmulShape m₁ (transposeShape [0, 1, 3, 2] X)
  pure (transposeShape [0, 2, 1, 3] y)

/-- Converts the shape of an internal array operation to the embedding's
error monad (numpy raises on a shape mismatch; no accepted input of
`whiten` reaches the error case). -/
def opResult (cplx : Bool) : Option Shape → Except String TensorMeta
  | some s => .ok ⟨cplx, s⟩
  | none => .error "shape mismatch in array operation"

/-- Shape and error behaviour of `ssspy.transform.whiten.whiten`: the
dispatch on dimension and dtype including its three `ValueError` branches,
with each accepted branch replaying the source's array operations on
shapes. -/
def whiten (t : TensorMeta) : Except String TensorMeta :=
  match t.shape with
  | [nCh, nSmp] =>
    if t.complex then
      .error "Real tensor is expected, but given complex tensor."
    else
      opResult t.complex (whiten2dShape nCh nSmp)
  | [d₀, d₁, d₂] =>
    if t.complex then
      opResult t.complex (whiten3dComplexShape d₀ d₁ d₂)
    else
      opResult t.complex (whiten3dRealShape d₀ d₁ d₂)
  | [d₀, d₁, d₂, d₃] =>
    if t.complex then
      opResult t.complex (whiten4dComplexShape d₀ d₁ d₂ d₃)
    else
      .error "Complex tensor is expected, but given real tensor."
  | s =>
    .error ("The dimension of input is expected 2, 3, or 4, but given "
      ++ toString s.length ++ ".")

/-! ## Shape level model of `ILRMAbase.separate` and `ILRMAbase._reset`
(`ssspy/bss/ilrma.py`) -/

/-- Shape of `ILRMAbase.separate`: `Y = W @ X.transpose(1, 0, 2)` followed
by `Y.transpose(1, 0, 2)`; the transposes demand three dimensional
operands and the matrix product demands compatible shapes, mirroring
numpy's errors. -/
def separateShape (inputShape wShape : Shape) : Except String Shape :=
  match inputShape with
  | [m, i, j] =>
    match matmulShape wShape [i, m, j] with
    | some [a, b, c] => .ok [b, a, c]
    | some _ => .error "axes don't match array"
    | none => .error "matmul: shape mismatch"
  | _ => .error "axes don't match array"

/-- The keyword overrides accepted by `ILRMAbase._reset` that pre-seed
internal state, at shape level (`none` means the keyword is absent). -/
structure ResetOverrides where
  demix_filter : Option Shape := none
  basis : Option Shape := none
  activation : Option Shape := none
  latent : Option Shape := none
  deriving DecidableEq, Repr

/-- The tensor state established by `ILRMAbase._reset` / `_init_nmf`, at
shape level. -/
structure ILRMAState where
  demix_filter : Shape
  output : Shape
  basis : Shape
  activation : Shape
  latent : Option Shape
  deriving DecidableEq, Repr

/-- Shape behaviour of `ILRMAbase._reset` with `_init_nmf`: the input must
unpack as `(n_channels, n_bins, n_frames)`; an absent `demix_filter`
becomes the tiled identity `(n_bins, n_sources, n_channels)` with
`n_sources = n_channels`; `separate` runs once on the (possibly
overridden) filter; NMF tensors take the override shape unchecked when
supplied, else the freshly drawn shapes.  No override shape is validated
anywhere in `_reset`. -/
def ilrmaReset (partitioning : Bool) (nBasis : ℕ) (inputShape : Shape)
    (kw : ResetOverrides) : Except String ILRMAState :=
  match inputShape with
  | [m, i, j] =>
    let w := kw.demix_filter.getD [i, m, m]
    match separateShape [m, i, j] w with
    | .error e => .error e
    | .ok out =>
      if partitioning then
        .ok ⟨w, out, kw.basis.getD [i, nBasis], kw.activation.getD [nBasis, j],
          some (kw.latent.getD [m, nBasis])⟩
      else
        .ok ⟨w, out, kw.basis.getD [m, i, nBasis], kw.activation.getD [m, nBasis, j], none⟩
  | _ => .error "not a 3D spectrogram"

/-! ## Numeric core of `ssspy/bss/ilrma.py`

Machine floats are embedded as real numbers, complex spectrogram entries
as `ℂ`. -/

/-- Value of the module constant `EPS` of `ssspy/bss/ilrma.py`. -/
noncomputable def ilrmaEPS : ℝ := 1e-15

/-- Modelled from the spec: the function `max_flooring` of
`ssspy/bss/_flooring.py` is absent from the sources; per spec §6 the
default flooring function is the elementwise maximum with epsilon. -/
noncomputable def max_flooring (eps : ℝ) (x : ℝ) : ℝ := max eps x

/-- Method `ILRMAbase.separate` on concrete tensors: per bin `i` the
demixing matrix `W i` is applied to the mixture vector,
`Y n i j = Σ_m W i n m * X m i j`. -/
noncomputable def separate {M N I J : ℕ} (X : Fin M → Fin I → Fin J → ℂ)
    (W : Fin I → Fin N → Fin M → ℂ) : Fin N → Fin I → Fin J → ℂ :=
  fun n i j => ∑ m, W i n m * X m i j

/-- Default demixing filter of `ILRMAbase._reset`: the identity matrix
tiled over all bins. -/
noncomputable def initial_demix_filter (M I : ℕ) : Fin I → Fin M → Fin M → ℂ :=
  fun _ n m => if n = m then 1 else 0

/-- Method `ILRMAbase.reconstruct_nmf` without latent variables:
`R = T @ V` per source. -/
noncomputable def reconstruct_nmf {N I K J : ℕ} (T : Fin N → Fin I → Fin K → ℝ)
    (V : Fin N → Fin K → Fin J → ℝ) : Fin N → Fin I → Fin J → ℝ :=
  fun n i j => ∑ k, T n i k * V n k j

/-- Method `ILRMAbase.reconstruct_nmf` with latent variables:
`R n i j = Σ_k Z n k * T i k * V k j`. -/
noncomputable def reconstruct_nmf_latent {N I K J : ℕ} (Z : Fin N → Fin K → ℝ)
    (T : Fin I → Fin K → ℝ) (V : Fin K → Fin J → ℝ) : Fin N → Fin I → Fin J → ℝ :=
  fun n i j => ∑ k, Z n k * (T i k * V k j)

/-- Mean power per source, `np.mean(np.abs(Y) ** 2, axis=(-2, -1))` in
`ILRMAbase.normalize_by_power`. -/
noncomputable def meanPower {N I J : ℕ} (Y : Fin N → Fin I → Fin J → ℂ) (n : Fin N) : ℝ :=
  (∑ i, ∑ j, Complex.abs (Y n i j) ^ 2) / (I * J)

/-- Scale `ψ` of `ILRMAbase.normalize_by_power` for the IP family: the
flooring of the root mean power of the separated signal. -/
noncomputable def powerPsi {M I J : ℕ} (eps : ℝ) (X : Fin M → Fin I → Fin J → ℂ)
    (W : Fin I → Fin M → Fin M → ℂ) (n : Fin M) : ℝ :=
  max_flooring eps (Real.sqrt (meanPower (separate X W) n))

/-- Demixing filter update of `ILRMAbase.normalize_by_power` for the IP
family: `W ← W / ψ`. -/
noncomputable def normalize_by_power_demix {M I J : ℕ} (eps : ℝ)
    (X : Fin M → Fin I → Fin J → ℂ) (W : Fin I → Fin M → Fin M → ℂ) :
    Fin I → Fin M → Fin M → ℂ :=
  fun i n m => W i n m / (powerPsi eps X W n : ℝ)

/-- Basis update of `ILRMAbase.normalize_by_power` without partitioning:
`T ← T / ψ ^ p`. -/
noncomputable def normalize_by_power_basis {M I J K : ℕ} (eps p : ℝ)
    (X : Fin M → Fin I → Fin J → ℂ) (W : Fin I → Fin M → Fin M → ℂ)
    (T : Fin M → Fin I → Fin K → ℝ) : Fin M → Fin I → Fin K → ℝ :=
  fun n i k => T n i k / powerPsi eps X W n ^ p

/-- Unnormalized latent update of `GaussILRMA.update_latent`:
`Z ← ((num / denom) ** (p / (p + 2))) * Z` with the contractions of the
source. -/
noncomputable def GaussILRMA_update_latent_pre {N I K J : ℕ} (p : ℝ)
    (Y : Fin N → Fin I → Fin J → ℂ) (Z : Fin N → Fin K → ℝ)
    (T : Fin I → Fin K → ℝ) (V : Fin K → Fin J → ℝ) : Fin N → Fin K → ℝ :=
  fun n k =>
    let Y2 : Fin N → Fin I → Fin J → ℝ := fun n i j => Complex.abs (Y n i j) ^ 2
    let ZTV := reconstruct_nmf_latent Z T V
    let num := ∑ i, ∑ j, T i k * V k j / ZTV n i j ^ ((p + 2) / p) * Y2 n i j
    let denom := ∑ i, ∑ j, T i k * V k j / ZTV n i j
    (num / denom) ^ (p / (p + 2)) * Z n k

/-- Method `GaussILRMA.update_latent`: the unnormalized multiplicative
update followed by division by the column sum (`Z = Z / Z.sum(axis=0)`);
no flooring is applied. -/
noncomputable def GaussILRMA_update_latent {N I K J : ℕ} (p : ℝ)
    (Y : Fin N → Fin I → Fin J → ℂ) (Z : Fin N → Fin K → ℝ)
    (T : Fin I → Fin K → ℝ) (V : Fin K → Fin J → ℝ) : Fin N → Fin K → ℝ :=
  fun n k =>
    GaussILRMA_update_latent_pre p Y Z T V n k /
      ∑ n', GaussILRMA_update_latent_pre p Y Z T V n' k

/-- Method `GaussILRMA.update_basis` in partitioning mode: multiplicative
update followed by the flooring function. -/
noncomputable def GaussILRMA_update_basis {N I K J : ℕ} (eps p : ℝ)
    (Y : Fin N → Fin I → Fin J → ℂ) (Z : Fin N → Fin K → ℝ)
    (T : Fin I → Fin K → ℝ) (V : Fin K → Fin J → ℝ) : Fin I → Fin K → ℝ :=
  fun i k =>
    let Y2 : Fin N → Fin I → Fin J → ℝ := fun n i j => Complex.abs (Y n i j) ^ 2
    let ZTV := reconstruct_nmf_latent Z T V
    let num := ∑ n, ∑ j, Z n k * V k j / ZTV n i j ^ ((p + 2) / p) * Y2 n i j
    let denom := ∑ n, ∑ j, Z n k * V k j / ZTV n i j
    max_flooring eps ((num / denom) ^ (p / (p + 2)) * T i k)

/-- Method `GaussILRMA.update_activation` in partitioning mode:
multiplicative update followed by the flooring function. -/
noncomputable def GaussILRMA_update_activation {N I K J : ℕ} (eps p : ℝ)
    (Y : Fin N → Fin I → Fin J → ℂ) (Z : Fin N → Fin K → ℝ)
    (T : Fin I → Fin K → ℝ) (V : Fin K → Fin J → ℝ) : Fin K → Fin J → ℝ :=
  fun k j =>
    let Y2 : Fin N → Fin I → Fin J → ℝ := fun n i j => Complex.abs (Y n i j) ^ 2
    let ZTV := reconstruct_nmf_latent Z T V
    let num := ∑ n, ∑ i, Z n k * T i k / ZTV n i j ^ ((p + 2) / p) * Y2 n i j
    let denom := ∑ n, ∑ i, Z n k * T i k / ZTV n i j
    max_flooring eps ((num / denom) ^ (p / (p + 2)) * V k j)

/-- Unnormalized latent update of `TILRMA.update_latent`, with the
degrees-of-freedom weighted power `R̃`. -/
noncomputable def TILRMA_update_latent_pre {N I K J : ℕ} (p nu : ℝ)
    (Y : Fin N → Fin I → Fin J → ℂ) (Z : Fin N → Fin K → ℝ)
    (T : Fin I → Fin K → ℝ) (V : Fin K → Fin J → ℝ) : Fin N → Fin K → ℝ :=
  fun n k =>
    let Y2 : Fin N → Fin I → Fin J → ℝ := fun n i j => Complex.abs (Y n i j) ^ 2
    let ZTV := reconstruct_nmf_latent Z T V
    let Rtilde : Fin N → Fin I → Fin J → ℝ := fun n i j =>
      nu / (nu + 2) * ZTV n i j ^ ((2 : ℝ) / p) + (1 - nu / (nu + 2)) * Y2 n i j
    let num := ∑ i, ∑ j, T i k * V k j / (Rtilde n i j * ZTV n i j) * Y2 n i j
    let denom := ∑ i, ∑ j, T i k * V k j / ZTV n i j
    (num / denom) ^ (p / (p + 2)) * Z n k

/-- Method `TILRMA.update_latent`: the unnormalized multiplicative update
followed by division by the column sum; no flooring is applied. -/
noncomputable def TILRMA_update_latent {N I K J : ℕ} (p nu : ℝ)
    (Y : Fin N → Fin I → Fin J → ℂ) (Z : Fin N → Fin K → ℝ)
    (T : Fin I → Fin K → ℝ) (V : Fin K → Fin J → ℝ) : Fin N → Fin K → ℝ :=
  fun n k =>
    TILRMA_update_latent_pre p nu Y Z T V n k /
      ∑ n', TILRMA_update_latent_pre p nu Y Z T V n' k

/-- Method `ILRMAbase.update_once`: raises `NotImplementedError`
unconditionally. -/
def ILRMAbase_update_once : Except String Unit :=
  .error "Implement update_once method."

/-- Method `ILRMAbase.compute_loss`: raises `NotImplementedError`
unconditionally. -/
def ILRMAbase_compute_loss : Except String ℝ :=
  .error "Implement compute_loss method."

/-- Modelled from the spec: the function `projection_back` of
`ssspy/algorithm` applied to a demixing filter is absent from the
sources; per spec §4.4 and the docstring mathematics of
`ILRMAbase.normalize_by_projection_back`, row `n` of the per-bin filter is
rescaled by the scale `ψ_i = W_i⁻¹ e_ref`, i.e. by `(W i)⁻¹ ref n`. -/
noncomputable def projection_back {B N : ℕ} (W : Fin B → Matrix (Fin N) (Fin N) ℂ)
    (ref : Fin N) : Fin B → Matrix (Fin N) (Fin N) ℂ :=
  fun b => Matrix.of fun n m => (W b)⁻¹ ref n * W b n m

/-! ## Configuration checks of `GaussILRMA` (`ssspy/bss/ilrma.py`) -/

/-- Value of the module constant `spatial_algorithms`. -/
def spatial_algorithms : List String := ["IP", "IP1", "IP2", "ISS", "ISS1", "ISS2"]

/-- Possible values of the `normalization` argument (`True`, `False`, or a
method name). -/
inductive Normalization
  | off
  | boolTrue
  | power
  | projectionBack
  deriving DecidableEq, Repr

/-- Truthiness of the `normalization` attribute, as tested by
`if self.normalization:` in `update_once`. -/
def Normalization.truthy : Normalization → Bool
  | .off => false
  | _ => true

/-- Name resolution of `ILRMAbase.normalize`: a boolean `True` means
`"power"`. -/
def Normalization.resolved : Normalization → Normalization
  | .boolTrue => .power
  | x => x

/-- Configuration state built by `GaussILRMA.__init__`. -/
structure GaussILRMAConfig where
  spatial_algorithm : String
  domain : ℝ
  partitioning : Bool
  normalization : Normalization

/-- Validation performed by `GaussILRMA.__init__`: it asserts that the
spatial algorithm is supported and that the domain lies in `[1, 2]`; the
combination of `partitioning` with projection-back normalization is not
examined here. -/
noncomputable def GaussILRMA_init (spatial_algorithm : String) (domain : ℝ)
    (partitioning : Bool) (normalization : Normalization) :
    Except String GaussILRMAConfig :=
  if spatial_algorithm ∉ spatial_algorithms then
    .error "Not support the spatial algorithm."
  else if ¬ (1 ≤ domain ∧ domain ≤ 2) then
    .error "domain parameter should be chosen from [1, 2]."
  else
    .ok ⟨spatial_algorithm, domain, partitioning, normalization⟩

/-- Raise behaviour of `ILRMAbase.normalize_by_projection_back`: with
partitioning active it raises `NotImplementedError`; every other path of
the method returns normally. -/
def normalize_by_projection_back_check (partitioning : Bool) : Except String Unit :=
  if partitioning then
    .error "Projection-back-based normalization is not applicable with partitioning function."
  else
    .ok ()

/-- Raise behaviour of `ILRMAbase.normalize`: asserts a truthy setting,
resolves booleans, and dispatches. -/
def normalize_check (cfg : GaussILRMAConfig) : Except String Unit :=
  if ¬ cfg.normalization.truthy then
    .error "Set normalization."
  else
    match cfg.normalization.resolved with
    | .power => .ok ()
    | .projectionBack => normalize_by_projection_back_check cfg.partitioning
    | _ => .error "Normalization is not implemented."

/-- Raise behaviour of `GaussILRMA.update_once`: the source-model and
spatial updates raise nothing by themselves; normalization, when truthy,
runs last — inside the iteration. -/
def update_once_check (cfg : GaussILRMAConfig) : Except String Unit :=
  if cfg.normalization.truthy then normalize_check cfg else .ok ()

/-! ## Correlation based permutation solver
(`ssspy/bss/_solve_permutation.py`), instantiated at two sources -/

/-- Value of the module constant `EPS` of
`ssspy/bss/_solve_permutation.py`. -/
noncomputable def solverEPS : ℝ := 1e-12

/-- Transposition of the two source labels: the second element of
`itertools.permutations(range(2))`. -/
def swp : Fin 2 → Fin 2
  | 0 => 1
  | 1 => 0

/-- Magnitude patterns `P = np.abs(Y).transpose(1, 0, 2)`, indexed bin
first. -/
noncomputable def solverMag {B J : ℕ} (Y : Fin 2 → Fin B → Fin J → ℂ) :
    Fin B → Fin 2 → Fin J → ℝ :=
  fun b n f => Complex.abs (Y n b f)

/-- Patterns normalized per bin and frame across sources and floored
(`norm = flooring_fn(np.sqrt(np.sum(P ** 2, axis=1)))`, `P = P / norm`). -/
noncomputable def solverPn {B J : ℕ} (eps : ℝ) (Y : Fin 2 → Fin B → Fin J → ℂ) :
    Fin B → Fin 2 → Fin J → ℝ :=
  fun b n f =>
    solverMag Y b n f / max_flooring eps (Real.sqrt (∑ n', solverMag Y b n' f ^ 2))

/-- Total self correlation per bin
(`np.sum(P @ P.transpose(0, 2, 1), axis=(1, 2))`). -/
noncomputable def solverCorr {B J : ℕ} (eps : ℝ) (Y : Fin 2 → Fin B → Fin J → ℂ)
    (b : Fin B) : ℝ :=
  ∑ n, ∑ n', ∑ f, solverPn eps Y b n f * solverPn eps Y b n' f

/-- Stable insertion by value: the new element goes after every element
whose value does not exceed it. -/
noncomputable def insertByVal {α : Type} (val : α → ℝ) : List α → α → List α
  | [], b => [b]
  | c :: rest, b => if val b < val c then b :: c :: rest else c :: insertByVal val rest b

/-- Model of `np.argsort(correlation)`: a stable ascending sort of the bin
indices by correlation value. -/
noncomputable def argsort {B : ℕ} (val : Fin B → ℝ) : List (Fin B) :=
  (List.finRange B).foldl (insertByVal val) []

/-- One step of the alignment loop at two sources: the label permutation
of bin `b` maximizing the dot product with the accumulated reference is
chosen (identity unless the swap is strictly better, matching the
enumeration order of `itertools.permutations` and the strict comparison
`P_perm > P_max`); the permuted pattern is folded into the reference and
the rows of the bin's filter are permuted accordingly. -/
noncomputable def solverStep {B J : ℕ} (Pn : Fin B → Fin 2 → Fin J → ℝ)
    (st : (Fin 2 → Fin J → ℝ) × (Fin B → Fin 2 → Fin 2 → ℂ)) (b : Fin B) :
    (Fin 2 → Fin J → ℝ) × (Fin B → Fin 2 → Fin 2 → ℂ) :=
  let idVal := ∑ n, ∑ f, st.1 n f * Pn b n f
  let swVal := ∑ n, ∑ f, st.1 n f * Pn b (swp n) f
  let perm : Fin 2 → Fin 2 := if idVal < swVal then swp else id
  (fun n f => st.1 n f + Pn b (perm n) f,
   fun b' => if b' = b then fun n m => st.2 b (perm n) m else st.2 b')

/-- Function `correlation_based_permutation_solver` at two sources: bins
are visited in ascending self correlation order, the first visited bin
seeds the reference pattern, and every later bin is aligned to the
accumulated reference. -/
noncomputable def correlation_based_permutation_solver {B J : ℕ} (eps : ℝ)
    (Y : Fin 2 → Fin B → Fin J → ℂ) (W : Fin B → Fin 2 → Fin 2 → ℂ) :
    Fin B → Fin 2 → Fin 2 → ℂ :=
  match argsort (solverCorr eps Y) with
  | [] => W
  | b₀ :: rest => (rest.foldl (solverStep (solverPn eps Y)) (solverPn eps Y b₀, W)).2

/-! ## Reduction lemmas for the shape calculus -/

theorem bcastDim_self (d : ℕ) : bcastDim d d = some d := by
  simp [bcastDim]

theorem bcastDim_one_right (d : ℕ) : bcastDim d 1 = some d := by
  by_cases h : d = 1 <;> simp [bcastDim, h]

theorem bcastDim_one_left (d : ℕ) : bcastDim 1 d = some d := by
  by_cases h : d = 1 <;> simp [bcastDim, h, eq_comm]

theorem whiten_2d_real (a b : ℕ) :
    whiten ⟨false, [a, b]⟩ = .ok ⟨false, [a, b]⟩ := by
  simp [whiten, whiten2dShape, opResult, transposeShape, newaxisAt, bcastShape,
    bcastAligned, meanAxis, eighShapes, diagShape, matmulShape, bcastDim_self,
    bcastDim_one_right, bcastDim_one_left]

theorem whiten_3d_complex (a b c : ℕ) :
    whiten ⟨true, [a, b, c]⟩ = .ok ⟨true, [a, b, c]⟩ := by
  simp [whiten, whiten3dComplexShape, opResult, transposeShape, newaxisAt, bcastShape,
    bcastAligned, meanAxis, eighShapes, diagShape, matmulShape, bcastDim_self,
    bcastDim_one_right, bcastDim_one_left]

theorem whiten_3d_real (a b c : ℕ) :
    whiten ⟨false, [a, b, c]⟩ = .ok ⟨false, [a, b, c]⟩ := by
  simp [whiten, whiten3dRealShape, opResult, transposeShape, newaxisAt, bcastShape,
    bcastAligned, meanAxis, eighShapes, diagShape, matmulShape, bcastDim_self,
    bcastDim_one_right, bcastDim_one_left]

theorem whiten_4d_complex (a b c d : ℕ) :
    whiten ⟨true, [a, b, c, d]⟩ = .ok ⟨true, [a, b, c, d]⟩ := by
  simp [whiten, whiten4dComplexShape, opResult, transposeShape, newaxisAt, bcastShape,
    bcastAligned, meanAxis, eighShapes, diagShape, matmulShape, bcastDim_self,
    bcastDim_one_right, bcastDim_one_left]

theorem separateShape_default (m i j : ℕ) :
    separateShape [m, i, j] [i, m, m] = .ok [m, i, j] := by
  simp [separateShape, matmulShape, bcastShape, bcastAligned, bcastDim_self]

/-! ## Claim theorems -/

/-- C10: `whiten` validates its input at the public interface: it raises
`ValueError` for a two dimensional complex input, for a four dimensional
real input, and for any input whose number of dimensions is not 2, 3 or 4;
every accepted input yields an output of the input's shape. -/
theorem whiten_validates_input_and_preserves_shape :
    (∀ a b : ℕ, whiten ⟨true, [a, b]⟩
      = .error "Real tensor is expected, but given complex tensor.") ∧
    (∀ a b c d : ℕ, whiten ⟨false, [a, b, c, d]⟩
      = .error "Complex tensor is expected, but given real tensor.") ∧
    (∀ t : TensorMeta, t.shape.length ≠ 2 → t.shape.length ≠ 3 →
      t.shape.length ≠ 4 → ∃ msg, whiten t = .error msg) ∧
    (∀ t u : TensorMeta, whiten t = .ok u → u.shape = t.shape) := by
  refine ⟨fun a b => rfl, fun a b c d => rfl, ?_, ?_⟩
  · rintro ⟨cx, s⟩ h2 h3 h4
    match s, h2, h3, h4 with
    | [], _, _, _ => exact ⟨_, rfl⟩
    | [a], _, _, _ => exact ⟨_, rfl⟩
    | [a, b], h2, _, _ => simp at h2
    | [a, b, c], _, h3, _ => simp at h3
    | [a, b, c, d], _, _, h4 => simp at h4
    | a :: b :: c :: d :: e :: rest, _, _, _ => exact ⟨_, rfl⟩
  · rintro ⟨cx, s⟩ u h
    match cx, s, h with
    | false, [a, b], h => rw [whiten_2d_real] at h; injection h with h; subst h; rfl
    | true, [a, b, c], h => rw [whiten_3d_complex] at h; injection h with h; subst h; rfl
    | false, [a, b, c], h => rw [whiten_3d_real] at h; injection h with h; subst h; rfl
    | true, [a, b, c, d], h => rw [whiten_4d_complex] at h; injection h with h; subst h; rfl
    | true, [a, b], h => exact Except.noConfusion h
    | false, [a, b, c, d], h => exact Except.noConfusion h
    | _, [], h => exact Except.noConfusion h
    | _, [a], h => exact Except.noConfusion h
    | _, a :: b :: c :: d :: e :: rest, h => exact Except.noConfusion h

/-- C10 witness: the theorem applied at concrete inputs — a five
dimensional input is rejected, and the accepted three dimensional complex
input keeps its shape. -/
theorem whiten_validates_input_and_preserves_shape_witness :
    (∃ msg, whiten ⟨false, [1, 2, 3, 4, 5]⟩ = .error msg) ∧
    (TensorMeta.mk true [2, 5, 9]).shape = [2, 5, 9] :=
  ⟨whiten_validates_input_and_preserves_shape.2.2.1 ⟨false, [1, 2, 3, 4, 5]⟩
      (by decide) (by decide) (by decide),
   whiten_validates_input_and_preserves_shape.2.2.2 ⟨true, [2, 5, 9]⟩
      ⟨true, [2, 5, 9]⟩ rfl⟩

/-- C1: the separator returns an estimate of the mixture's shape: for a
mixture of shape `(M, I, J)`, `_reset` (without overrides) establishes a
demixing filter of shape `(I, M, M)` and an output of shape `(M, I, J)`,
and `separate` applied to any filter of the shape the iterations maintain
returns exactly the mixture's shape. -/
theorem ilrma_call_output_matches_mixture_shape (M I J K : ℕ) (pf : Bool) :
    separateShape [M, I, J] [I, M, M] = Except.ok [M, I, J] ∧
    (ilrmaReset pf K [M, I, J] ⟨none, none, none, none⟩).map ILRMAState.output
      = Except.ok [M, I, J] ∧
    (ilrmaReset pf K [M, I, J] ⟨none, none, none, none⟩).map ILRMAState.demix_filter
      = Except.ok [I, M, M] := by
  have hs := separateShape_default M I J
  refine ⟨hs, ?_, ?_⟩ <;> cases pf <;> simp [ilrmaReset, hs, Except.map]

/-- C2 counterexample: a `basis` override whose shape `(9, 9, 9)`
disagrees with the inferred contract (here `(2, 3, 5)` for a `(2, 3, 4)`
mixture with 5 components) does not make the call fail at reset:
`_reset` completes normally, storing the mismatched tensor. -/
theorem reset_accepts_mismatched_basis_override :
    ilrmaReset false 5 [2, 3, 4] ⟨none, some [9, 9, 9], none, none⟩
      = Except.ok ⟨[3, 2, 2], [2, 3, 4], [9, 9, 9], [2, 5, 4], none⟩ := rfl

/-- C2 amended: `_reset` performs no shape validation of the keyword
overrides: with no `demix_filter` override it always succeeds, whatever
shapes are supplied for `basis`, `activation` or `latent`; a
`demix_filter` override fails at reset exactly when its shape breaks the
initial `separate` matrix product (a numpy matmul shape error), and any
other mismatch can only surface after reset. -/
theorem reset_override_validation (M I J K : ℕ) (pf : Bool) (kw : ResetOverrides) :
    (kw.demix_filter = none →
      ∃ st, ilrmaReset pf K [M, I, J] kw = Except.ok st) ∧
    (∀ s e, kw.demix_filter = some s → separateShape [M, I, J] s = .error e →
      ilrmaReset pf K [M, I, J] kw = .error e) := by
  obtain ⟨d, tb, ta, tl⟩ := kw
  constructor
  · rintro rfl
    have hs := separateShape_default M I J
    cases pf <;>
    · simp only [ilrmaReset, Option.getD_none, hs]
      exact ⟨_, rfl⟩
  · rintro s e rfl hsep
    simp [ilrmaReset, hsep]

/-- C2 witness: the theorem applied at concrete inputs — a mismatched
`demix_filter` override fails at reset with the matmul shape error, while
arbitrary mismatched NMF overrides reset successfully. -/
theorem reset_override_validation_witness :
    ilrmaReset false 2 [2, 3, 4] ⟨some [5, 7, 9], none, none, none⟩
      = Except.error "matmul: shape mismatch" ∧
    ∃ st, ilrmaReset true 2 [2, 3, 4] ⟨none, some [7], some [8, 8], some [9, 9, 9]⟩
      = Except.ok st :=
  ⟨(reset_override_validation 2 3 4 2 false ⟨some [5, 7, 9], none, none, none⟩).2
      [5, 7, 9] "matmul: shape mismatch" rfl rfl,
   (reset_override_validation 2 3 4 2 true ⟨none, some [7], some [8, 8], some [9, 9, 9]⟩).1 rfl⟩

/-- C5 counterexample: `GaussILRMA.__init__` accepts
`partitioning=True` together with projection-back normalization — the
forbidden combination does not fail at construction. -/
theorem gauss_init_accepts_partitioning_with_projection_back :
    GaussILRMA_init "IP" 2 true .projectionBack
      = Except.ok ⟨"IP", 2, true, .projectionBack⟩ := by
  have h1 : "IP" ∈ spatial_algorithms := by decide
  have h2 : (1 : ℝ) ≤ 2 ∧ (2 : ℝ) ≤ 2 := by norm_num
  simp [GaussILRMA_init, h1, h2]

/-- C5 amended: the combination of partitioning with projection-back
normalization is rejected, but not fast: construction succeeds (only the
spatial algorithm and domain are validated there), and the
`NotImplementedError` is raised by the normalization step at the end of
the first `update_once`, i.e. mid-iteration. -/
theorem partitioning_with_projection_back_raises_mid_iteration
    (cfg : GaussILRMAConfig) (hp : cfg.partitioning = true)
    (hn : cfg.normalization = .projectionBack)
    (ha : cfg.spatial_algorithm ∈ spatial_algorithms)
    (hd : 1 ≤ cfg.domain ∧ cfg.domain ≤ 2) :
    GaussILRMA_init cfg.spatial_algorithm cfg.domain cfg.partitioning cfg.normalization
      = Except.ok cfg ∧
    update_once_check cfg = Except.error
      "Projection-back-based normalization is not applicable with partitioning function." := by
  obtain ⟨sa, dm, pt, nm⟩ := cfg
  cases hp
  cases hn
  refine ⟨by simp [GaussILRMA_init, ha, hd], ?_⟩
  simp [update_once_check, normalize_check, Normalization.truthy,
    Normalization.resolved, normalize_by_projection_back_check]

/-- C5 witness: the theorem applied at the concrete configuration
`GaussILRMA(n_basis, spatial_algorithm="IP", domain=2,
partitioning=True, normalization="projection_back")`. -/
theorem partitioning_with_projection_back_raises_mid_iteration_witness :
    GaussILRMA_init "IP" 2 true .projectionBack
      = Except.ok ⟨"IP", 2, true, .projectionBack⟩ ∧
    update_once_check ⟨"IP", 2, true, .projectionBack⟩ = Except.error
      "Projection-back-based normalization is not applicable with partitioning function." :=
  partitioning_with_projection_back_raises_mid_iteration
    ⟨"IP", 2, true, .projectionBack⟩ rfl rfl (by decide) (by norm_num)

/-- C8 counterexample: `ILRMAbase.separate` does not raise an
unimplemented-variant error — invoked directly on the base class at a
concrete mixture and the initial identity filter it returns a value (the
mixture entry itself). -/
theorem base_separate_returns_value :
    separate (fun _ _ _ => (1 : ℂ)) (initial_demix_filter 2 3)
      (0 : Fin 2) (0 : Fin 3) (0 : Fin 4) = 1 := by
  simp [separate, initial_demix_filter, Fin.sum_univ_two]

/-- C8 amended: of the three base-class methods, `update_once` and
`compute_loss` raise `NotImplementedError` when invoked on `ILRMAbase`,
but `separate` is concretely implemented in the base class: it returns
the demixed signal, in particular the mixture itself under the initial
identity filter. -/
theorem base_class_method_behaviour (M I J : ℕ) (X : Fin M → Fin I → Fin J → ℂ) :
    (∃ e, ILRMAbase_update_once = Except.error e) ∧
    (∃ e, ILRMAbase_compute_loss = Except.error e) ∧
    separate X (initial_demix_filter M I) = X := by
  refine ⟨⟨_, rfl⟩, ⟨_, rfl⟩, ?_⟩
  funext n i j
  simp [separate, initial_demix_filter, ite_mul, Finset.sum_ite_eq]

/-- C3 amended: after every basis and activation update of `GaussILRMA`
the entries stay at or above the flooring epsilon — the flooring function
is the final step of both updates; the latent variables are exempt (see
the counterexample): `update_latent` only renormalizes. -/
theorem basis_activation_stay_floored {N I K J : ℕ} (eps p : ℝ)
    (Y : Fin N → Fin I → Fin J → ℂ) (Z : Fin N → Fin K → ℝ)
    (T : Fin I → Fin K → ℝ) (V : Fin K → Fin J → ℝ)
    (i : Fin I) (k k' : Fin K) (j : Fin J) :
    eps ≤ GaussILRMA_update_basis eps p Y Z T V i k ∧
    eps ≤ GaussILRMA_update_activation eps p Y Z T V k' j :=
  ⟨le_max_left _ _, le_max_left _ _⟩

/-- C3 counterexample: the latent variables do not remain at or above the
flooring epsilon: from the valid state `Z = (1/2, 1/2)`, `T = V = 1`,
`p = 2` with a silent second source, `GaussILRMA.update_latent` returns
exactly `0` for that source — below `EPS = 1e-15` (no flooring is applied
to `Z`). -/
theorem latent_update_drops_below_eps :
    @GaussILRMA_update_latent 2 1 1 1 2 (fun n _ _ => if n = 0 then 1 else 0)
      (fun _ _ => (1 : ℝ) / 2) (fun _ _ => 1) (fun _ _ => 1)
      (1 : Fin 2) (0 : Fin 1) < ilrmaEPS := by
  have hne : ((2 : ℝ) / (2 + 2)) ≠ 0 := by norm_num
  have h10 : (1 : Fin 2) ≠ 0 := by decide
  have hval : @GaussILRMA_update_latent 2 1 1 1 2 (fun n _ _ => if n = 0 then 1 else 0)
      (fun _ _ => (1 : ℝ) / 2) (fun _ _ => 1) (fun _ _ => 1)
      (1 : Fin 2) (0 : Fin 1) = 0 := by
    simp [GaussILRMA_update_latent, GaussILRMA_update_latent_pre,
      reconstruct_nmf_latent, Fin.sum_univ_one, h10, Real.zero_rpow hne]
  rw [hval]
  rw [ilrmaEPS]
  norm_num

/-- C4: in partitioning mode the columns of the latent weights sum to one
after every latent update, for the Gaussian and the Student-t variants
alike, provided the unnormalized column sums are nonzero (the final step
of both updates divides by the column sum). -/
theorem latent_update_columns_sum_to_one {N I K J : ℕ} (p nu : ℝ)
    (Y : Fin N → Fin I → Fin J → ℂ) (Z : Fin N → Fin K → ℝ)
    (T : Fin I → Fin K → ℝ) (V : Fin K → Fin J → ℝ)
    (hg : ∀ k, (∑ n, GaussILRMA_update_latent_pre p Y Z T V n k) ≠ 0)
    (ht : ∀ k, (∑ n, TILRMA_update_latent_pre p nu Y Z T V n k) ≠ 0) :
    (∀ k, ∑ n, GaussILRMA_update_latent p Y Z T V n k = 1) ∧
    (∀ k, ∑ n, TILRMA_update_latent p nu Y Z T V n k = 1) := by
  constructor <;> intro k
  · simp only [GaussILRMA_update_latent]
    rw [← Finset.sum_div, div_self (hg k)]
  · simp only [TILRMA_update_latent]
    rw [← Finset.sum_div, div_self (ht k)]

/-- C4 witness: the theorem applied at a concrete two-source state with
`p = 2`, `ν = 2`, unit spectrogram and `Z = (1/2, 1/2)`, `T = 2`,
`V = 1`, where the unnormalized updates evaluate to `1/2` per source. -/
theorem latent_update_columns_sum_to_one_witness :
    (∑ n : Fin 2, @GaussILRMA_update_latent 2 1 1 1 2 (fun _ _ _ => (1 : ℂ))
      (fun _ _ => (1 : ℝ) / 2) (fun _ _ => 2) (fun _ _ => 1) n 0 = 1) ∧
    (∑ n : Fin 2, @TILRMA_update_latent 2 1 1 1 2 2 (fun _ _ _ => (1 : ℂ))
      (fun _ _ => (1 : ℝ) / 2) (fun _ _ => 2) (fun _ _ => 1) n 0 = 1) := by
  have hpre : ∀ n : Fin 2, @GaussILRMA_update_latent_pre 2 1 1 1 2 (fun _ _ _ => (1 : ℂ))
      (fun _ _ => (1 : ℝ) / 2) (fun _ _ => 2) (fun _ _ => 1) n 0 = 1 / 2 := by
    intro n
    norm_num [GaussILRMA_update_latent_pre, reconstruct_nmf_latent,
      Fin.sum_univ_one, map_one, Real.one_rpow]
  have hpre' : ∀ n : Fin 2, @TILRMA_update_latent_pre 2 1 1 1 2 2 (fun _ _ _ => (1 : ℂ))
      (fun _ _ => (1 : ℝ) / 2) (fun _ _ => 2) (fun _ _ => 1) n 0 = 1 / 2 := by
    intro n
    norm_num [TILRMA_update_latent_pre, reconstruct_nmf_latent,
      Fin.sum_univ_one, map_one, Real.one_rpow]
  have h := @latent_update_columns_sum_to_one 2 1 1 1 2 2 (fun _ _ _ => (1 : ℂ))
      (fun _ _ => (1 : ℝ) / 2) (fun _ _ => 2) (fun _ _ => 1)
      (by intro k; rw [Subsingleton.elim k 0, Fin.sum_univ_two, hpre 0, hpre 1]; norm_num)
      (by intro k; rw [Subsingleton.elim k 0, Fin.sum_univ_two, hpre' 0, hpre' 1]; norm_num)
  exact ⟨h.1 0, h.2 0⟩

/-- C6: after the power normalization step the separated output computed
from the normalized filters has mean power exactly one per source
(whenever the flooring does not alter the root mean power), and the
basis entries are divided by exactly the per-source scale raised to the
domain exponent: multiplying back by `ψ ^ p` restores the basis. -/
theorem normalize_by_power_unit_mean_power {M I J K : ℕ} (eps p : ℝ)
    (X : Fin M → Fin I → Fin J → ℂ) (W : Fin I → Fin M → Fin M → ℂ)
    (T : Fin M → Fin I → Fin K → ℝ) (n : Fin M)
    (h0 : 0 < meanPower (separate X W) n)
    (heps : eps ≤ Real.sqrt (meanPower (separate X W) n)) :
    meanPower (separate X (normalize_by_power_demix eps X W)) n = 1 ∧
    ∀ i k, normalize_by_power_basis eps p X W T n i k * powerPsi eps X W n ^ p
      = T n i k := by
  have hpsi : powerPsi eps X W n = Real.sqrt (meanPower (separate X W) n) :=
    max_eq_right heps
  have hspos : 0 < powerPsi eps X W n := hpsi ▸ Real.sqrt_pos.mpr h0
  constructor
  · have hsep : ∀ i j, separate X (normalize_by_power_demix eps X W) n i j
        = separate X W n i j / (powerPsi eps X W n : ℂ) := by
      intro i j
      simp only [separate, normalize_by_power_demix]
      rw [Finset.sum_div]
      exact Finset.sum_congr rfl fun m _ => by ring
    have habs : ∀ (i : Fin I) (j : Fin J),
        Complex.abs (separate X (normalize_by_power_demix eps X W) n i j) ^ 2
          = Complex.abs (separate X W n i j) ^ 2 / powerPsi eps X W n ^ 2 := by
      intro i j
      rw [hsep i j, map_div₀, Complex.abs_ofReal, abs_of_pos hspos, div_pow]
    have hmean : meanPower (separate X (normalize_by_power_demix eps X W)) n
        = meanPower (separate X W) n / powerPsi eps X W n ^ 2 := by
      simp only [meanPower]
      rw [div_right_comm]
      congr 1
      rw [Finset.sum_div]
      refine Finset.sum_congr rfl fun i _ => ?_
      rw [Finset.sum_div]
      exact Finset.sum_congr rfl fun j _ => habs i j
    rw [hmean, hpsi, Real.sq_sqrt h0.le, div_self h0.ne']
  · intro i k
    have hpow : powerPsi eps X W n ^ p ≠ 0 := (Real.rpow_pos_of_pos hspos p).ne'
    exact div_mul_cancel₀ _ hpow

/-- C6 witness: the theorem applied to the one-channel unit mixture with
identity filter, where the mean power is one and the flooring is
inactive. -/
theorem normalize_by_power_unit_mean_power_witness :
    @meanPower 1 1 1 (@separate 1 1 1 1 (fun _ _ _ => (1 : ℂ))
      (@normalize_by_power_demix 1 1 1 ilrmaEPS (fun _ _ _ => (1 : ℂ))
        (fun _ _ _ => (1 : ℂ)))) 0 = 1 := by
  have hm : @meanPower 1 1 1 (@separate 1 1 1 1 (fun _ _ _ => (1 : ℂ))
      (fun _ _ _ => (1 : ℂ))) 0 = 1 := by
    norm_num [meanPower, separate, Fin.sum_univ_one, map_one]
  refine (@normalize_by_power_unit_mean_power 1 1 1 1 ilrmaEPS 2 (fun _ _ _ => (1 : ℂ))
    (fun _ _ _ => (1 : ℂ)) (fun _ _ _ => (1 : ℝ)) 0 ?_ ?_).1
  · rw [hm]; norm_num
  · rw [hm, Real.sqrt_one, ilrmaEPS]; norm_num

/-- C9: projection-back scale restoration is idempotent on the demixing
filter and the output: when the filters and their projection-back scales
are nonsingular, a second application of `projection_back` reproduces the
first exactly, and so the output computed from the twice-projected filter
equals the once-projected output. -/
theorem apply_projection_back_idempotent {B N : ℕ}
    (W : Fin B → Matrix (Fin N) (Fin N) ℂ) (ref : Fin N)
    (hdet : ∀ b, IsUnit (W b).det)
    (hscale : ∀ b n, (W b)⁻¹ ref n ≠ 0) :
    projection_back (projection_back W ref) ref = projection_back W ref ∧
    ∀ (J : ℕ) (X : Fin N → Fin B → Fin J → ℂ),
      separate X (fun b n m => projection_back (projection_back W ref) ref b n m)
        = separate X (fun b n m => projection_back W ref b n m) := by
  have key : ∀ b, projection_back (projection_back W ref) ref b
      = projection_back W ref b := by
    intro b
    have hW1 : projection_back W ref b
        = Matrix.diagonal (fun k => (W b)⁻¹ ref k) * W b := by
      ext n m
      simp [projection_back, Matrix.diagonal_mul]
    have hright : projection_back W ref b *
        ((W b)⁻¹ * Matrix.diagonal (fun k => ((W b)⁻¹ ref k)⁻¹)) = 1 := by
      rw [hW1, Matrix.mul_assoc, ← Matrix.mul_assoc (W b),
        Matrix.mul_nonsing_inv _ (hdet b), Matrix.one_mul,
        Matrix.diagonal_mul_diagonal]
      rw [show (fun k => (W b)⁻¹ ref k * ((W b)⁻¹ ref k)⁻¹) = fun _ => (1 : ℂ) from
        funext fun k => mul_inv_cancel₀ (hscale b k)]
      exact Matrix.diagonal_one
    have hval : ∀ n, (projection_back W ref b)⁻¹ ref n = 1 := by
      intro n
      rw [Matrix.inv_eq_right_inv hright, Matrix.mul_diagonal]
      exact mul_inv_cancel₀ (hscale b n)
    ext n m
    show (projection_back W ref b)⁻¹ ref n * projection_back W ref b n m
      = projection_back W ref b n m
    rw [hval n, one_mul]
  exact ⟨funext key, fun J X => by funext nn i j; simp [separate, key]⟩

/-- C9 witness: the theorem applied to the one-bin, one-source identity
filter, whose determinant is a unit and whose projection-back scale is
one. -/
theorem apply_projection_back_idempotent_witness :
    projection_back (projection_back
      (fun _ : Fin 1 => (1 : Matrix (Fin 1) (Fin 1) ℂ)) 0) 0
      = projection_back (fun _ : Fin 1 => (1 : Matrix (Fin 1) (Fin 1) ℂ)) 0 :=
  (apply_projection_back_idempotent (fun _ => 1) 0
    (fun _ => by simp)
    (fun b n => by
      fin_cases n
      simp [inv_one, Matrix.one_apply])).1


/-! ## Lemmas for the permutation solver -/

theorem swp_swp (n : Fin 2) : swp (swp n) = n := by fin_cases n <;> rfl

theorem insertByVal_const {α : Type} (val : α → ℝ) (h : ∀ a b, val a = val b) :
    ∀ (l : List α) (b : α), insertByVal val l b = l ++ [b] := by
  intro l b
  induction l with
  | nil => rfl
  | cons c rest ih => simp [insertByVal, h b c, ih]

theorem foldl_insertByVal_const {α : Type} (val : α → ℝ) (h : ∀ a b, val a = val b) :
    ∀ (l acc : List α), l.foldl (insertByVal val) acc = acc ++ l := by
  intro l
  induction l with
  | nil => simp
  | cons b rest ih =>
    intro acc
    rw [List.foldl_cons, insertByVal_const val h, ih]
    simp

theorem argsort_const {B : ℕ} (val : Fin B → ℝ) (h : ∀ a b, val a = val b) :
    argsort val = List.finRange B := by
  unfold argsort
  rw [foldl_insertByVal_const val h]
  simp

theorem mul_dot {J : ℕ} (c : ℝ) (x y : Fin 2 → Fin J → ℝ) :
    ∑ n, ∑ f, (c * x n f) * y n f = c * ∑ n, ∑ f, x n f * y n f := by
  rw [Finset.mul_sum]
  refine Finset.sum_congr rfl fun n _ => ?_
  rw [Finset.mul_sum]
  exact Finset.sum_congr rfl fun f _ => by ring

theorem dot_orient {J : ℕ} (q : Fin 2 → Fin J → ℝ) (o1 o2 : Bool) :
    ∑ n, ∑ f, q (cond o1 (swp n) n) f * q (cond o2 (swp n) n) f
      = if o1 = o2 then (∑ n, ∑ f, q n f * q n f)
        else (∑ n, ∑ f, q n f * q (swp n) f) := by
  cases o1 <;> cases o2 <;> simp [Fin.sum_univ_two, swp, mul_comm] <;> ring

theorem corr_orient {J : ℕ} (q : Fin 2 → Fin J → ℝ) (o : Bool) :
    ∑ n, ∑ n', ∑ f, q (cond o (swp n) n) f * q (cond o (swp n') n') f
      = ∑ n, ∑ n', ∑ f, q n f * q n' f := by
  cases o <;> simp [Fin.sum_univ_two, swp, mul_comm] <;> ring


/-- Invariant of the alignment loop: visiting bins whose normalized
patterns equal a common pattern `q` up to a per-bin label swap, with the
accumulated reference a positive multiple of the reference orientation of
`q`, every visited bin's filter is aligned to the reference orientation
and the unvisited bins keep their filters. -/
theorem solver_foldl_aligns {B J : ℕ}
    (Pn : Fin B → Fin 2 → Fin J → ℝ) (q : Fin 2 → Fin J → ℝ)
    (S : Fin B → Bool) (σ : Bool)
    (hPn : ∀ b n f, Pn b n f = q (cond (S b) (swp n) n) f)
    (W₀ Win : Fin B → Fin 2 → Fin 2 → ℂ)
    (hWin : ∀ b n m, Win b n m = W₀ b (cond (S b) (swp n) n) m)
    (hED : (∑ n, ∑ f, q n f * q (swp n) f) < ∑ n, ∑ f, q n f * q n f)
    (l : List (Fin B)) :
    l.Nodup → ∀ (c : ℝ), 0 < c →
      ∀ (Wc : Fin B → Fin 2 → Fin 2 → ℂ), (∀ b ∈ l, Wc b = Win b) →
      ∀ (b : Fin B),
        (l.foldl (solverStep Pn) (fun n f => c * q (cond σ (swp n) n) f, Wc)).2 b
          = if b ∈ l then (fun n m => W₀ b (cond σ (swp n) n) m) else Wc b := by
  induction l with
  | nil =>
    intro _ c hc Wc hWc b
    simp
  | cons a l ih =>
    intro hnd c hc Wc hWc b
    obtain ⟨ha, hl⟩ := List.nodup_cons.mp hnd
    have hWca : Wc a = Win a := hWc a (List.mem_cons_self a l)
    have hPnswp : ∀ n f, Pn a (swp n) f = q (cond (!(S a)) (swp n) n) f := by
      intro n f
      rw [hPn a (swp n) f]
      cases hS : S a <;> simp [swp_swp]
    have hidv : (∑ n, ∑ f, (c * q (cond σ (swp n) n) f) * Pn a n f)
        = c * ((∑ n, ∑ f, q (cond σ (swp n) n) f * q (cond (S a) (swp n) n) f)) := by
      rw [← mul_dot]
      refine Finset.sum_congr rfl fun n _ => Finset.sum_congr rfl fun f _ => ?_
      rw [hPn a n f]
    have hswv : (∑ n, ∑ f, (c * q (cond σ (swp n) n) f) * Pn a (swp n) f)
        = c * ((∑ n, ∑ f, q (cond σ (swp n) n) f * q (cond (!(S a)) (swp n) n) f)) := by
      rw [← mul_dot]
      refine Finset.sum_congr rfl fun n _ => Finset.sum_congr rfl fun f _ => ?_
      rw [hPnswp n f]
    have hstep : solverStep Pn (fun n f => c * q (cond σ (swp n) n) f, Wc) a
        = (fun n f => (c + 1) * q (cond σ (swp n) n) f,
           fun b' => if b' = a then (fun n m => W₀ a (cond σ (swp n) n) m) else Wc b') := by
      by_cases hσ : S a = σ
      · have hcmp : ¬ ((∑ n, ∑ f, (c * q (cond σ (swp n) n) f) * Pn a n f)
            < ∑ n, ∑ f, (c * q (cond σ (swp n) n) f) * Pn a (swp n) f) := by
          rw [hidv, hswv, hσ, dot_orient, dot_orient, if_pos rfl,
            if_neg (show ¬ (σ = !σ) by cases σ <;> simp)]
          exact not_lt.mpr (le_of_lt ((mul_lt_mul_left hc).mpr hED))
        simp only [solverStep, if_neg hcmp]
        refine Prod.ext ?_ ?_
        · show (fun n f => c * q (cond σ (swp n) n) f + Pn a (id n) f)
            = fun n f => (c + 1) * q (cond σ (swp n) n) f
          funext n f
          simp only [id_eq, hPn a n f, hσ]
          ring
        · show (fun b' => if b' = a then (fun n m => Wc a (id n) m) else Wc b')
            = fun b' => if b' = a then (fun n m => W₀ a (cond σ (swp n) n) m) else Wc b'
          funext b'
          by_cases hb' : b' = a
          · subst hb'
            rw [if_pos rfl, if_pos rfl]
            funext n m
            rw [id_eq, hWca, hWin, hσ]
          · rw [if_neg hb', if_neg hb']
      · have hSa : S a = !σ := by
          cases σ <;> cases hS : S a <;> simp_all
        have hcmp : ((∑ n, ∑ f, (c * q (cond σ (swp n) n) f) * Pn a n f)
            < ∑ n, ∑ f, (c * q (cond σ (swp n) n) f) * Pn a (swp n) f) := by
          rw [hidv, hswv, hSa, dot_orient, dot_orient,
            if_neg (show ¬ (σ = !σ) by cases σ <;> simp),
            if_pos (show σ = !!σ by simp)]
          exact (mul_lt_mul_left hc).mpr hED
        simp only [solverStep, if_pos hcmp]
        refine Prod.ext ?_ ?_
        · show (fun n f => c * q (cond σ (swp n) n) f + Pn a (swp n) f)
            = fun n f => (c + 1) * q (cond σ (swp n) n) f
          funext n f
          rw [hPnswp n f, hSa, Bool.not_not]
          ring
        · show (fun b' => if b' = a then (fun n m => Wc a (swp n) m) else Wc b')
            = fun b' => if b' = a then (fun n m => W₀ a (cond σ (swp n) n) m) else Wc b'
          funext b'
          by_cases hb' : b' = a
          · subst hb'
            rw [if_pos rfl, if_pos rfl]
            funext n m
            rw [hWca, hWin, hSa]
            cases σ <;> simp [swp_swp]
          · rw [if_neg hb', if_neg hb']
    rw [List.foldl_cons, hstep]
    have hWc' : ∀ b' ∈ l,
        (fun b' => if b' = a then (fun n m => W₀ a (cond σ (swp n) n) m) else Wc b') b'
          = Win b' := by
      intro b' hb'
      have hba : b' ≠ a := fun h => ha (h ▸ hb')
      simp only [if_neg hba]
      exact hWc b' (List.mem_cons_of_mem a hb')
    rw [ih hl (c + 1) (by linarith) _ hWc' b]
    by_cases hb : b ∈ l
    · simp [hb, List.mem_cons_of_mem a hb]
    · by_cases hba : b = a
      · subst hba
        simp [hb, List.mem_cons_self]
      · simp [hb, hba, List.mem_cons]


/-- The solver aligns every bin's filter to the labeling of the first
bin in index order (all bins have equal self correlation under the
consistency hypothesis, so the stable argsort visits them in index
order). -/
theorem solver_aligns_to_first_bin {B J : ℕ}
    (Y : Fin 2 → Fin B → Fin J → ℂ) (W₀ : Fin B → Fin 2 → Fin 2 → ℂ)
    (S : Fin B → Bool) (A : Fin 2 → Fin J → ℝ) (hB : 0 < B)
    (hY : ∀ n b f, Complex.abs (Y n b f) = A (cond (S b) (swp n) n) f)
    (hA : ∃ f, A 0 f ≠ A 1 f) :
    ∀ (b : Fin B) (n m : Fin 2),
      correlation_based_permutation_solver solverEPS Y
        (fun b n m => W₀ b (cond (S b) (swp n) n) m) b n m
        = W₀ b (cond (S ⟨0, hB⟩) (swp n) n) m := by
  obtain ⟨B', rfl⟩ : ∃ B', B = B' + 1 := ⟨B - 1, by omega⟩
  set q : Fin 2 → Fin J → ℝ :=
    fun n f => A n f / max_flooring solverEPS (Real.sqrt (∑ n', A n' f ^ 2)) with hqdef
  have hsum : ∀ (b : Fin (B' + 1)) (f : Fin J),
      (∑ n', Complex.abs (Y n' b f) ^ 2) = ∑ n', A n' f ^ 2 := by
    intro b f
    cases hS : S b
    · simp [hY, hS]
    · simp only [Fin.sum_univ_two, hY, hS]
      simp [swp]
      ring
  have hPn : ∀ b n f, solverPn solverEPS Y b n f = q (cond (S b) (swp n) n) f := by
    intro b n f
    simp only [solverPn, solverMag]
    rw [hsum b f, hY n b f]
  have hd : ∀ f, 0 < max_flooring solverEPS (Real.sqrt (∑ n', A n' f ^ 2)) := by
    intro f
    refine lt_of_lt_of_le ?_ (le_max_left _ _)
    rw [solverEPS]
    norm_num
  have hED : (∑ n, ∑ f, q n f * q (swp n) f) < ∑ n, ∑ f, q n f * q n f := by
    obtain ⟨f₀, hf₀⟩ := hA
    have hDE : (∑ n, ∑ f, q n f * q n f) - (∑ n, ∑ f, q n f * q (swp n) f)
        = ∑ f, (q 0 f - q 1 f) ^ 2 := by
      simp only [Fin.sum_univ_two, swp]
      rw [← Finset.sum_add_distrib, ← Finset.sum_add_distrib, ← Finset.sum_sub_distrib]
      exact Finset.sum_congr rfl fun f _ => by ring
    have hne : q 0 f₀ - q 1 f₀ ≠ 0 := by
      rw [hqdef]
      simp only
      rw [div_sub_div_same]
      exact div_ne_zero (sub_ne_zero.mpr hf₀) (hd f₀).ne'
    have hpos : 0 < ∑ f, (q 0 f - q 1 f) ^ 2 := by
      refine Finset.sum_pos' (fun f _ => sq_nonneg _) ⟨f₀, Finset.mem_univ f₀, ?_⟩
      exact lt_of_le_of_ne (sq_nonneg _) (Ne.symm (pow_ne_zero 2 hne))
    linarith [hDE, hpos]
  have hcorrval : ∀ b, solverCorr solverEPS Y b = ∑ n, ∑ n', ∑ f, q n f * q n' f := by
    intro b
    unfold solverCorr
    calc ∑ n, ∑ n', ∑ f, solverPn solverEPS Y b n f * solverPn solverEPS Y b n' f
        = ∑ n, ∑ n', ∑ f, q (cond (S b) (swp n) n) f * q (cond (S b) (swp n') n') f := by
          refine Finset.sum_congr rfl fun n _ => Finset.sum_congr rfl fun n' _ =>
            Finset.sum_congr rfl fun f _ => ?_
          rw [hPn, hPn]
      _ = _ := corr_orient q (S b)
  have hargs : argsort (solverCorr solverEPS Y)
      = (0 : Fin (B' + 1)) :: (List.finRange B').map Fin.succ := by
    rw [argsort_const _ (fun a b => by rw [hcorrval a, hcorrval b]), List.finRange_succ]
  have h00 : (⟨0, hB⟩ : Fin (B' + 1)) = 0 := by
    apply Fin.ext
    simp
  intro b n m
  simp only [correlation_based_permutation_solver]
  rw [hargs]
  show ((List.map Fin.succ (List.finRange B')).foldl (solverStep (solverPn solverEPS Y))
      (solverPn solverEPS Y 0, fun b n m => W₀ b (cond (S b) (swp n) n) m)).2 b n m
    = W₀ b (cond (S ⟨0, hB⟩) (swp n) n) m
  have hinit : solverPn solverEPS Y 0
      = fun n f => (1 : ℝ) * q (cond (S 0) (swp n) n) f := by
    funext n f
    rw [hPn]
    ring
  rw [hinit]
  have hmain := solver_foldl_aligns (solverPn solverEPS Y) q S (S 0) hPn
    W₀ (fun b n m => W₀ b (cond (S b) (swp n) n) m) (fun b n m => rfl) hED
    ((List.finRange B').map Fin.succ)
    ((List.nodup_finRange B').map (Fin.succ_injective B'))
    1 one_pos (fun b n m => W₀ b (cond (S b) (swp n) n) m) (fun b _ => rfl) b
  rw [hmain]
  by_cases hbmem : b ∈ (List.finRange B').map Fin.succ
  · rw [if_pos hbmem, h00]
  · rw [if_neg hbmem]
    have hb0 : b = 0 := by
      have : b ∈ (0 : Fin (B' + 1)) :: (List.finRange B').map Fin.succ := by
        rw [← List.finRange_succ]
        exact List.mem_finRange b
      rcases List.mem_cons.mp this with h | h
      · exact h
      · exact absurd h hbmem
    subst hb0
    rw [h00]


/-- C7 amended: at two sources, with mutually consistent magnitude
patterns and a permutation applied to a subset of the bins, the
correlation based permutation solver recovers the original labeling
exactly — provided the subset does not contain the solver's starting
reference bin (with all self correlations equal, the first bin in index
order); when the reference bin itself is permuted the output is the
globally swapped labeling instead (see the counterexample). -/
theorem solver_recovers_when_reference_unflipped {B J : ℕ}
    (Y : Fin 2 → Fin B → Fin J → ℂ) (W₀ : Fin B → Fin 2 → Fin 2 → ℂ)
    (S : Fin B → Bool) (A : Fin 2 → Fin J → ℝ) (hB : 0 < B)
    (hY : ∀ n b f, Complex.abs (Y n b f) = A (cond (S b) (swp n) n) f)
    (hA : ∃ f, A 0 f ≠ A 1 f) (hS0 : S ⟨0, hB⟩ = false) :
    ∀ b n m, correlation_based_permutation_solver solverEPS Y
        (fun b n m => W₀ b (cond (S b) (swp n) n) m) b n m = W₀ b n m := by
  intro b n m
  rw [solver_aligns_to_first_bin Y W₀ S A hB hY hA b n m, hS0]
  rfl

/-- C7 counterexample: when the permuted subset contains the reference
bin (here: every bin is label-swapped), the solver aligns every bin to
the swapped labeling of the reference bin: the output filter entry at
(bin 0, row 0, column 0) is 0, not the original identity entry 1 — the
pre-permutation ordering is not recovered. -/
theorem solver_keeps_flip_when_reference_bin_flipped :
    @correlation_based_permutation_solver 2 1 solverEPS
      (fun n _ _ => if n = 0 then 1 else 2)
      (fun _ n m => if swp n = m then (1 : ℂ) else 0)
      (0 : Fin 2) (0 : Fin 2) (0 : Fin 2) = 0 := by
  have h := @solver_aligns_to_first_bin 2 1
    (fun n _ _ => if n = 0 then (1 : ℂ) else 2)
    (fun _ n m => if n = m then (1 : ℂ) else 0)
    (fun _ => true)
    (fun n _ => if n = 0 then (2 : ℝ) else 1)
    (by norm_num)
    (by
      intro n b f
      fin_cases n <;> simp [swp, Complex.abs_two])
    ⟨0, by norm_num⟩
  exact h 0 0 0

/-- C7 witness: the amended theorem applied to the concrete two-bin
instance whose second bin is label-swapped: the solver swaps it back to
the identity filter. -/
theorem solver_recovers_when_reference_unflipped_witness :
    @correlation_based_permutation_solver 2 1 solverEPS
      (fun n b _ => if n = b then (2 : ℂ) else 1)
      (fun b n m =>
        if (cond (decide (b = (1 : Fin 2))) (swp n) n) = m then (1 : ℂ) else 0)
      (1 : Fin 2) (0 : Fin 2) (0 : Fin 2) = 1 := by
  have h := @solver_recovers_when_reference_unflipped 2 1
    (fun n b _ => if n = b then (2 : ℂ) else 1)
    (fun _ n m => if n = m then (1 : ℂ) else 0)
    (fun b => decide (b = (1 : Fin 2)))
    (fun n _ => if n = 0 then (2 : ℝ) else 1)
    (by norm_num)
    (by
      intro n b f
      fin_cases n <;> fin_cases b <;> simp [swp, Complex.abs_two])
    ⟨0, by norm_num⟩
    (by decide)
  exact h 1 0 0

end Ssspy
